import Mathlib

/-!
Verification of the chained hash table in `src/hash_table.c` / `src/hash_table.h`
of the tiny-http repository.

Shallow embedding conventions:

* C strings (keys and values) are modelled as `List Nat`, the list of the
  bytes of the string up to (and excluding) the terminating NUL, so `strcmp`
  equality is list equality.
* `int64_t` arithmetic is modelled on `Int` with explicit two's-complement
  wrap-around (`wrap64`), since the C code multiplies and shifts 64-bit
  values past the signed range; `%` on nonnegative operands is `Int.tmod`,
  exactly C's truncated `%`.
* The bucket array `node_t **table` is a `List Chain`, one entry per slot;
  a doubly-linked chain is modelled by the list of its entries in chain
  order (head first).  Pointer splicing of a node out of a chain is removal
  of that element from the list, and inserting at the head is `cons`.
* `malloc` returns memory with arbitrary contents and the C code never
  clears the fresh bucket array.  Every operation that allocates a bucket
  array therefore takes a `junk : Nat → Chain` parameter giving the
  contents the uninitialized memory happens to hold (slot `i` of a fresh
  array of size `sz` reads as `junk i`).  `noJunk` is the all-empty
  contents, i.e. the behaviour the specification demands of a fresh array.
-/

namespace HashTable

/-- A C string: its byte content, NUL terminator excluded. -/
abbrev Str := List Nat

/-- The key/value payload of a `node_t`. -/
abbrev Entry := Str × Str

/-- A bucket chain: the entries of one doubly-linked list, head first. -/
abbrev Chain := List Entry

/-- `#define MIN_TABLE_SIZE 16` -/
def MIN_TABLE_SIZE : Nat := 16

/-- `static int64_t p;` set in `init_hash` to `2305843009213693951` (2^61 - 1). -/
def p : Int := 2305843009213693951

/-- The process-wide random hash parameters `a` and `b` drawn in `init_hash`. -/
structure HParams where
  a : Int
  b : Int

/-- Two's-complement wrap of a mathematical integer into `int64_t`
(the de-facto behaviour of the 64-bit arithmetic in the source).
The literals are 2^63 and 2^64. -/
def wrap64 (z : Int) : Int :=
  (z + 9223372036854775808) % 18446744073709551616 - 9223372036854775808

/-- The `int c = *str++` read: bytes 128..255 read as negative on a
signed-`char` platform. -/
def toSByte (b : Nat) : Int := if b < 128 then (b : Int) else (b : Int) - 256

/-- `prehash` (hash_table.c lines 37-45): Bernstein's djb2,
`hash = hash * 33 + c` over the bytes of the string, seed 5381,
accumulated in `int64_t`. -/
def prehash (str : Str) : Int :=
  str.foldl (fun h c => wrap64 (h * 33 + toSByte c)) 5381

/-- The `while (x < 0) x += y;` loop of `mod` (hash_table.c lines 18-22),
written with an explicit fuel counter; `(-x).toNat` steps always suffice
when `0 < y`, and the loop exits early as soon as `x` is nonnegative. -/
def modLoop : Nat → Int → Int → Int
  | 0, x, _ => x
  | fuel + 1, x, y => if x < 0 then modLoop fuel (x + y) y else x

/-- `mod` (hash_table.c lines 18-22): add `y` while negative, then C's
truncated `%` (`Int.tmod`). -/
def mod (x y : Int) : Int := Int.tmod (modLoop (-x).toNat x y) y

/-- `hash` (hash_table.c lines 50-53): `mod(mod(a * k + b, p), m)` where
`k = prehash(str)` and `a * k + b` is computed in `int64_t`. -/
def hash (P : HParams) (str : Str) (m : Int) : Int :=
  mod (mod (wrap64 (P.a * prehash str + P.b)) p) m

/-- `hash` used as a bucket index (the C `int` return value is used to
subscript the bucket array). -/
def hashIdx (P : HParams) (str : Str) (m : Nat) : Nat :=
  (hash P str (m : Int)).toNat

/-- The `hasht_t` struct: table size `m`, element count `n`, bucket array. -/
structure Hasht where
  m : Nat
  n : Nat
  table : List Chain

/-- `new_hash_table` (lines 99-105): `m = n = 0`, no bucket array. -/
def new_hash_table : Hasht := { m := 0, n := 0, table := [] }

/-- Reading slot `i` of a bucket array (out-of-range reads never happen in
the source; they default to the empty chain here). -/
def bucketAt (t : List Chain) (i : Nat) : Chain := t.getD i []

/-- A `malloc`ed bucket array of `sz` slots whose uninitialized contents
read as `junk`. -/
def alloc (sz : Nat) (junk : Nat → Chain) : List Chain :=
  (List.range sz).map junk

/-- The contents the specification requires of a fresh bucket array:
every slot empty. -/
def noJunk : Nat → Chain := fun _ => []

/-- One iteration of the inner `while` of `resize_hash_table`
(lines 199-214): relink node `e` at the head of the chain in slot
`hash(e.key, newm)` of the new array. -/
def placeEntry (P : HParams) (newm : Nat) (t : List Chain) (e : Entry) : List Chain :=
  t.set (hashIdx P e.1 newm) (e :: bucketAt t (hashIdx P e.1 newm))

/-- Relink one old chain, head to tail, into the new array. -/
def rehashChain (P : HParams) (newm : Nat) (t : List Chain) (c : Chain) : List Chain :=
  c.foldl (placeEntry P newm) t

/-- The outer `for` of `resize_hash_table`: relink every old chain. -/
def rehashAll (P : HParams) (newm : Nat) (t : List Chain) (bs : List Chain) : List Chain :=
  bs.foldl (rehashChain P newm) t

/-- `resize_hash_table` (lines 192-221): allocate a fresh array of `newm`
slots (contents `junk`, the code does not clear them), rehash every entry
of the old array into it, install it and set `m = newm`. -/
def resize_hash_table (P : HParams) (ht : Hasht) (newm : Nat) (junk : Nat → Chain) : Hasht :=
  { m := newm, n := ht.n, table := rehashAll P newm (alloc newm junk) ht.table }

/-- `grow_hash_table` (lines 226-238): if `m == 0` start a fresh
`MIN_TABLE_SIZE` array (again uncleared), otherwise resize to `2 * m`. -/
def grow_hash_table (P : HParams) (ht : Hasht) (junk : Nat → Chain) : Hasht :=
  if ht.m = 0 then { m := MIN_TABLE_SIZE, n := ht.n, table := alloc MIN_TABLE_SIZE junk }
  else resize_hash_table P ht (2 * ht.m) junk

/-- `shrink_hash_table` (lines 286-296): do nothing below
`MIN_TABLE_SIZE * 2`, otherwise resize to `m / 2`. -/
def shrink_hash_table (P : HParams) (ht : Hasht) (junk : Nat → Chain) : Hasht :=
  if ht.m < MIN_TABLE_SIZE * 2 then ht else resize_hash_table P ht (ht.m / 2) junk

/-- `hash_search_node` (lines 135-154): `NULL` on the empty table, else
walk the chain in slot `hash(key, m)` and return the first node whose key
compares equal. -/
def hash_search_node (P : HParams) (ht : Hasht) (key : Str) : Option Entry :=
  if ht.m = 0 then none
  else (bucketAt ht.table (hashIdx P key ht.m)).find? fun e => e.1 == key

/-- `hash_contains` (lines 160-163). -/
def hash_contains (P : HParams) (ht : Hasht) (key : Str) : Bool :=
  (hash_search_node P ht key).isSome

/-- `hash_search` (lines 171-184): `NULL` if absent, else a fresh copy of
the stored value (the copy is modelled by returning the value itself). -/
def hash_search (P : HParams) (ht : Hasht) (key : Str) : Option Str :=
  (hash_search_node P ht key).map fun e => e.2

/-- The override step of `hash_insert` (lines 252-262): the found node
keeps its key and chain position, its value is replaced.  This replaces
the value of the first node of the chain whose key matches. -/
def replaceVal (key v : Str) : Chain → Chain
  | [] => []
  | e :: es => if e.1 == key then (e.1, v) :: es else e :: replaceVal key v es

/-- `hash_insert` (lines 249-281): override in place when the key is
found; otherwise grow first when `n == m`, increment `n`, and link a new
node at the head of the chain in slot `hash(key, m)` of the (possibly
grown) table. -/
def hash_insert (P : HParams) (ht : Hasht) (key value : Str) (junk : Nat → Chain) : Hasht :=
  match hash_search_node P ht key with
  | some _ =>
    { ht with
      table := ht.table.set (hashIdx P key ht.m)
        (replaceVal key value (bucketAt ht.table (hashIdx P key ht.m))) }
  | none =>
    let ht1 := if ht.n = ht.m then grow_hash_table P ht junk else ht
    let ht2 : Hasht := { ht1 with n := ht1.n + 1 }
    { ht2 with
      table := ht2.table.set (hashIdx P key ht2.m)
        ((key, value) :: bucketAt ht2.table (hashIdx P key ht2.m)) }

/-- The pointer splice of `hash_remove` (lines 317-323): unlink the first
node of the chain whose key matches. -/
def eraseKeyOnce (key : Str) : Chain → Chain
  | [] => []
  | e :: es => if e.1 == key then es else e :: eraseKeyOnce key es

/-- `hash_remove` (lines 302-327): no-op when the key is absent; else,
when `n/4 <= m`, shrink first (and re-find the node), then decrement `n`
and splice the node out of the chain in slot `hash(key, m)` of the
(possibly shrunk) table. -/
def hash_remove (P : HParams) (ht : Hasht) (key : Str) (junk : Nat → Chain) : Hasht :=
  match hash_search_node P ht key with
  | none => ht
  | some _ =>
    let ht1 := if ht.n / 4 ≤ ht.m then shrink_hash_table P ht junk else ht
    { m := ht1.m, n := ht1.n - 1,
      table := ht1.table.set (hashIdx P key ht1.m)
        (eraseKeyOnce key (bucketAt ht1.table (hashIdx P key ht1.m))) }

/-- `hash_search_node` as a state transformer `table → result × table`,
statement by statement: the body only reads `ht` (the `if`, the slot read
and the chain walk perform no assignment to the table). -/
def hash_search_node_st (P : HParams) (ht : Hasht) (key : Str) : Option Entry × Hasht :=
  if ht.m = 0 then (none, ht)
  else ((bucketAt ht.table (hashIdx P key ht.m)).find? (fun e => e.1 == key), ht)

/-- `hash_contains` as a state transformer: it only calls
`hash_search_node` and tests the returned pointer. -/
def hash_contains_st (P : HParams) (ht : Hasht) (key : Str) : Bool × Hasht :=
  ((hash_search_node_st P ht key).1.isSome, (hash_search_node_st P ht key).2)

/-- `hash_search` as a state transformer: it calls `hash_search_node` and
`strdup`s the value, touching no table state. -/
def hash_search_st (P : HParams) (ht : Hasht) (key : Str) : Option Str × Hasht :=
  ((hash_search_node_st P ht key).1.map (fun e => e.2), (hash_search_node_st P ht key).2)

/-- One client call: `hash_insert` or `hash_remove` (each with whatever
contents the allocator happens to return that call). -/
inductive Op where
  | ins : Str → Str → (Nat → Chain) → Op
  | del : Str → (Nat → Chain) → Op

/-- Apply one operation to a table. -/
def applyOp (P : HParams) (t : Hasht) : Op → Hasht
  | Op.ins k v junk => hash_insert P t k v junk
  | Op.del k junk => hash_remove P t k junk

/-- Run a sequence of operations from a fresh table. -/
def run (P : HParams) (ops : List Op) : Hasht :=
  ops.foldl (applyOp P) new_hash_table

/-- All stored entries of a table, bucket by bucket. -/
def entries (t : Hasht) : List Entry := t.table.flatten

/-- The structural part of the table invariant: the bucket array has `m`
slots, and the empty table (`m = 0`) holds no entries. -/
def WFlen (t : Hasht) : Prop :=
  t.table.length = t.m ∧ (t.m = 0 → t.n = 0)

/-- No key is stored twice. -/
def NodupKeys (t : Hasht) : Prop := ((entries t).map Prod.fst).Nodup

/-- Every stored entry sits in the bucket its key hashes to. -/
def BucketsOk (P : HParams) (t : Hasht) : Prop :=
  ∀ i : Nat, ∀ e ∈ bucketAt t.table i, hashIdx P e.1 t.m = i

/-- The full invariant of reachable tables. -/
def WF (P : HParams) (t : Hasht) : Prop :=
  WFlen t ∧ NodupKeys t ∧ BucketsOk P t

/-- Concrete hash parameters (a possible draw of `random()`), used by the
concrete instantiations below. -/
def P0 : HParams := { a := 1, b := 0 }

/-- With a positive step, `(-x).toNat` units of fuel are enough for the
`while (x < 0)` loop to exit with a nonnegative value. -/
lemma modLoop_nonneg : ∀ (fuel : Nat) (x y : Int), 0 < y → (-x).toNat ≤ fuel →
    0 ≤ modLoop fuel x y := by
  intro fuel
  induction fuel with
  | zero =>
    intro x y hy hf
    have hx : 0 ≤ x := by omega
    simpa [modLoop] using hx
  | succ f ih =>
    intro x y hy hf
    by_cases hx : x < 0
    · have h1 : (-(x + y)).toNat ≤ f := by omega
      simpa [modLoop, hx] using ih (x + y) y hy h1
    · have hx' : 0 ≤ x := by omega
      simpa [modLoop, hx] using hx'

/-- `mod` is nonnegative for a positive modulus, whatever the sign of `x`. -/
lemma mod_nonneg_of_pos (x y : Int) (hy : 0 < y) : 0 ≤ mod x y :=
  Int.tmod_nonneg y (modLoop_nonneg _ x y hy le_rfl)

/-- `mod` is below a positive modulus. -/
lemma mod_lt_of_pos (x y : Int) (hy : 0 < y) : mod x y < y :=
  Int.tmod_lt_of_pos _ hy

/-- The bucket index is in range for a nonempty table. -/
lemma hashIdx_lt (P : HParams) (k : Str) {m : Nat} (hm : 0 < m) :
    hashIdx P k m < m := by
  have hm' : (0 : Int) < (m : Int) := by exact_mod_cast hm
  have h1 := mod_nonneg_of_pos (mod (wrap64 (P.a * prehash k + P.b)) p) (m : Int) hm'
  have h2 := mod_lt_of_pos (mod (wrap64 (P.a * prehash k + P.b)) p) (m : Int) hm'
  unfold hashIdx hash
  omega

/-- In-range slot reads are list indexing. -/
lemma bucketAt_lt {t : List Chain} {i : Nat} (h : i < t.length) :
    bucketAt t i = t[i] := List.getD_eq_getElem t [] h

/-- Out-of-range slot reads default to the empty chain. -/
lemma bucketAt_ge {t : List Chain} {i : Nat} (h : t.length ≤ i) :
    bucketAt t i = [] := List.getD_eq_default t [] h

/-- An entry read from some slot is among the table's entries. -/
lemma mem_flatten_of_bucketAt {t : List Chain} {i : Nat} {e : Entry}
    (he : e ∈ bucketAt t i) : e ∈ t.flatten := by
  by_cases h : i < t.length
  · exact List.mem_flatten.2 ⟨t[i], List.getElem_mem h, by rwa [bucketAt_lt h] at he⟩
  · rw [bucketAt_ge (le_of_not_lt h)] at he
    cases he

/-- Reading back a freshly written slot. -/
lemma bucketAt_set_self {t : List Chain} {i : Nat} (h : i < t.length) (c : Chain) :
    bucketAt (t.set i c) i = c := by
  rw [bucketAt_lt (by simpa using h)]
  exact List.getElem_set_self (by simpa using h)

/-- Writing one slot leaves the others unchanged. -/
lemma bucketAt_set_ne {t : List Chain} {i j : Nat} (h : i ≠ j) (c : Chain) :
    bucketAt (t.set i c) j = bucketAt t j := by
  unfold bucketAt
  rw [List.getD_eq_getElem?_getD, List.getD_eq_getElem?_getD, List.getElem?_set_ne h]

/-- Writing a slot back to its own contents changes nothing. -/
lemma set_self_eq {α : Type} : ∀ (l : List α) (i : Nat), (h : i < l.length) →
    l.set i l[i] = l := by
  intro l
  induction l with
  | nil => intro i h; simp at h
  | cons a l ih =>
    intro i h
    cases i with
    | zero => rfl
    | succ i => simpa using ih i (by simpa using h)

/-- Prepending an entry to one slot permutes the entry into the table. -/
lemma flatten_set_cons : ∀ (t : List Chain) (i : Nat), i < t.length → ∀ (e : Entry),
    List.Perm (t.set i (e :: bucketAt t i)).flatten (e :: t.flatten) := by
  intro t
  induction t with
  | nil => intro i h; simp at h
  | cons c rest ih =>
    intro i h e
    cases i with
    | zero =>
      have hb : bucketAt (c :: rest) 0 = c := rfl
      rw [hb]
      simp
    | succ i =>
      have h' : i < rest.length := by simpa using h
      have hb : bucketAt (c :: rest) (i + 1) = bucketAt rest i := rfl
      rw [hb]
      have hstep : ((c :: rest).set (i + 1) (e :: bucketAt rest i)).flatten
          = c ++ (rest.set i (e :: bucketAt rest i)).flatten := by simp
      rw [hstep]
      refine List.Perm.trans (List.Perm.append_left c (ih i h' e)) ?_
      simp

lemma length_placeEntry (P : HParams) (newm : Nat) (t : List Chain) (e : Entry) :
    (placeEntry P newm t e).length = t.length := List.length_set ..

lemma flatten_placeEntry (P : HParams) {newm : Nat} {t : List Chain} (e : Entry)
    (hlen : t.length = newm) (h0 : 0 < newm) :
    List.Perm (placeEntry P newm t e).flatten (e :: t.flatten) :=
  flatten_set_cons t _ (by rw [hlen]; exact hashIdx_lt P e.1 h0) e

lemma length_rehashChain (P : HParams) (newm : Nat) :
    ∀ (c : Chain) (t : List Chain), (rehashChain P newm t c).length = t.length := by
  intro c
  induction c with
  | nil => intro t; rfl
  | cons e es ih =>
    intro t
    have : rehashChain P newm t (e :: es) = rehashChain P newm (placeEntry P newm t e) es := rfl
    rw [this, ih, length_placeEntry]

lemma flatten_rehashChain (P : HParams) {newm : Nat} (h0 : 0 < newm) :
    ∀ (c : Chain) (t : List Chain), t.length = newm →
    List.Perm (rehashChain P newm t c).flatten (c ++ t.flatten) := by
  intro c
  induction c with
  | nil => intro t _; simp [rehashChain]
  | cons e es ih =>
    intro t hlen
    have hstep : rehashChain P newm t (e :: es) = rehashChain P newm (placeEntry P newm t e) es := rfl
    rw [hstep]
    have h1 := ih (placeEntry P newm t e) (by rw [length_placeEntry, hlen])
    refine List.Perm.trans h1 ?_
    refine List.Perm.trans (List.Perm.append_left es (flatten_placeEntry P e hlen h0)) ?_
    simp

lemma length_rehashAll (P : HParams) (newm : Nat) :
    ∀ (bs : List Chain) (t : List Chain), (rehashAll P newm t bs).length = t.length := by
  intro bs
  induction bs with
  | nil => intro t; rfl
  | cons c cs ih =>
    intro t
    have : rehashAll P newm t (c :: cs) = rehashAll P newm (rehashChain P newm t c) cs := rfl
    rw [this, ih, length_rehashChain]

lemma flatten_rehashAll (P : HParams) {newm : Nat} (h0 : 0 < newm) :
    ∀ (bs : List Chain) (t : List Chain), t.length = newm →
    List.Perm (rehashAll P newm t bs).flatten (bs.flatten ++ t.flatten) := by
  intro bs
  induction bs with
  | nil => intro t _; simp [rehashAll]
  | cons c cs ih =>
    intro t hlen
    have hstep : rehashAll P newm t (c :: cs) = rehashAll P newm (rehashChain P newm t c) cs := rfl
    rw [hstep]
    have h1 := ih (rehashChain P newm t c) (by rw [length_rehashChain, hlen])
    refine List.Perm.trans h1 ?_
    refine List.Perm.trans (List.Perm.append_left cs.flatten (flatten_rehashChain P h0 c t hlen)) ?_
    have hassoc : cs.flatten ++ (c ++ t.flatten) = (cs.flatten ++ c) ++ t.flatten := by
      rw [List.append_assoc]
    rw [hassoc]
    have hcomm : List.Perm (cs.flatten ++ c) (c ++ cs.flatten) := List.perm_append_comm
    simpa using List.Perm.append_right t.flatten hcomm

/-- Invariant of the rehash folds: every entry of the array under
construction sits in the slot its key hashes to (w.r.t. `newm`). -/
def slotsOk (P : HParams) (newm : Nat) (t : List Chain) : Prop :=
  ∀ i : Nat, ∀ e ∈ bucketAt t i, hashIdx P e.1 newm = i

lemma slotsOk_placeEntry (P : HParams) {newm : Nat} {t : List Chain} (e : Entry)
    (hlen : t.length = newm) (h0 : 0 < newm) (hs : slotsOk P newm t) :
    slotsOk P newm (placeEntry P newm t e) := by
  intro i e' he'
  by_cases hij : hashIdx P e.1 newm = i
  · subst hij
    rw [placeEntry, bucketAt_set_self (by rw [hlen]; exact hashIdx_lt P e.1 h0)] at he'
    rcases List.mem_cons.1 he' with h | h
    · rw [h]
    · exact hs _ e' h
  · rw [placeEntry, bucketAt_set_ne hij] at he'
    exact hs i e' he'

lemma slotsOk_rehashChain (P : HParams) {newm : Nat} (h0 : 0 < newm) :
    ∀ (c : Chain) (t : List Chain), t.length = newm → slotsOk P newm t →
    slotsOk P newm (rehashChain P newm t c) := by
  intro c
  induction c with
  | nil => intro t _ hs; exact hs
  | cons e es ih =>
    intro t hlen hs
    exact ih (placeEntry P newm t e) (by rw [length_placeEntry, hlen])
      (slotsOk_placeEntry P e hlen h0 hs)

lemma slotsOk_rehashAll (P : HParams) {newm : Nat} (h0 : 0 < newm) :
    ∀ (bs : List Chain) (t : List Chain), t.length = newm → slotsOk P newm t →
    slotsOk P newm (rehashAll P newm t bs) := by
  intro bs
  induction bs with
  | nil => intro t _ hs; exact hs
  | cons c cs ih =>
    intro t hlen hs
    exact ih (rehashChain P newm t c) (by rw [length_rehashChain, hlen])
      (slotsOk_rehashChain P h0 c t hlen hs)

lemma length_alloc (sz : Nat) (junk : Nat → Chain) : (alloc sz junk).length = sz := by
  simp [alloc]

lemma alloc_noJunk (sz : Nat) : alloc sz noJunk = List.replicate sz [] := by
  unfold alloc noJunk
  rw [List.map_const', List.length_range]

lemma bucketAt_replicate_nil (sz i : Nat) :
    bucketAt (List.replicate sz ([] : Chain)) i = [] := by
  by_cases h : i < sz
  · rw [bucketAt_lt (by simpa using h)]
    exact List.getElem_replicate _ _
  · exact bucketAt_ge (by simp only [List.length_replicate]; omega)

lemma flatten_replicate_nil (sz : Nat) :
    (List.replicate sz ([] : Chain)).flatten = [] := by
  induction sz with
  | zero => rfl
  | succ n ih => simp [List.replicate_succ, ih]

lemma slotsOk_replicate_nil (P : HParams) (newm sz : Nat) :
    slotsOk P newm (List.replicate sz ([] : Chain)) := by
  intro i e he
  rw [bucketAt_replicate_nil] at he
  cases he

/-- The effect of `resize_hash_table` with cleared slots: same `n`, `m`
becomes `newm`, a bucket array of `newm` slots, the entries a permutation
of the old ones, every entry in the slot its key hashes to. -/
lemma resize_noJunk_spec (P : HParams) (t : Hasht) {newm : Nat} (h0 : 0 < newm) :
    (resize_hash_table P t newm noJunk).m = newm
    ∧ (resize_hash_table P t newm noJunk).n = t.n
    ∧ (resize_hash_table P t newm noJunk).table.length = newm
    ∧ List.Perm (entries (resize_hash_table P t newm noJunk)) (entries t)
    ∧ BucketsOk P (resize_hash_table P t newm noJunk) := by
  refine ⟨rfl, rfl, ?_, ?_, ?_⟩
  · rw [resize_hash_table]
    simp only []
    rw [length_rehashAll, length_alloc]
  · have h1 := flatten_rehashAll P h0 t.table (alloc newm noJunk) (length_alloc newm noJunk)
    have h2 : (alloc newm noJunk).flatten = [] := by
      rw [alloc_noJunk, flatten_replicate_nil]
    rw [h2] at h1
    simpa [entries, resize_hash_table] using h1
  · intro i e he
    have hs : slotsOk P newm (rehashAll P newm (alloc newm noJunk) t.table) := by
      refine slotsOk_rehashAll P h0 t.table (alloc newm noJunk) (length_alloc newm noJunk) ?_
      rw [alloc_noJunk]
      exact slotsOk_replicate_nil P newm newm
    exact hs i e he

/-- A found node means the table was not empty. -/
lemma m_ne_zero_of_search_node {P : HParams} {t : Hasht} {k : Str} {e : Entry}
    (h : hash_search_node P t k = some e) : t.m ≠ 0 := by
  intro h0
  rw [hash_search_node, if_pos h0] at h
  cases h

/-- What a successful `hash_search_node` returns: a stored entry with the
searched key. -/
lemma search_node_eq_some {P : HParams} {t : Hasht} {k : Str} {e : Entry}
    (h : hash_search_node P t k = some e) : e ∈ entries t ∧ e.1 = k := by
  rw [hash_search_node] at h
  split at h
  · cases h
  · refine ⟨mem_flatten_of_bucketAt (List.mem_of_find?_eq_some h), ?_⟩
    have h1 := List.find?_some h
    simpa using h1

/-- Conversely, under the invariant every stored `(k, v)` is found. -/
lemma search_node_of_mem {P : HParams} {t : Hasht} {k v : Str}
    (hlen : t.table.length = t.m) (hok : BucketsOk P t) (hnd : NodupKeys t)
    (hmem : (k, v) ∈ entries t) : hash_search_node P t k = some (k, v) := by
  have hnd' : ((entries t).map Prod.fst).Nodup := hnd
  obtain ⟨c, hc, hkv⟩ := List.mem_flatten.1 hmem
  obtain ⟨i, hi, hci⟩ := List.getElem_of_mem hc
  have hbi : (k, v) ∈ bucketAt t.table i := by rw [bucketAt_lt hi, hci]; exact hkv
  have hslot : hashIdx P k t.m = i := hok i ((k, v)) hbi
  have hm : t.m ≠ 0 := by
    rw [hlen] at hi
    omega
  rw [hash_search_node, if_neg hm, hslot]
  have hsome : ((bucketAt t.table i).find? fun e => e.1 == k).isSome :=
    List.find?_isSome.2 ⟨(k, v), hbi, by simp⟩
  obtain ⟨e', he'⟩ := Option.isSome_iff_exists.1 hsome
  rw [he']
  have h1 : e' ∈ bucketAt t.table i := List.mem_of_find?_eq_some he'
  have h2 : e'.1 = k := by simpa using List.find?_some he'
  have h3 : e' ∈ entries t := mem_flatten_of_bucketAt h1
  have h4 : e' = (k, v) := List.inj_on_of_nodup_map hnd' h3 hmem (by simpa using h2)
  rw [h4]

/-- If the chain holds the key, the override step puts `(k, v)` where the
first matching node was, and the chain walk finds it. -/
lemma find?_replaceVal (k v : Str) : ∀ c : Chain,
    (c.find? fun e => e.1 == k).isSome →
    ((replaceVal k v c).find? fun e => e.1 == k) = some (k, v) := by
  intro c
  induction c with
  | nil => intro h; simp [List.find?] at h
  | cons e es ih =>
    intro h
    by_cases hek : e.1 = k
    · rw [replaceVal, if_pos (by simp [hek])]
      rw [List.find?_cons_of_pos _ (by simp [hek])]
      rw [hek]
    · rw [replaceVal, if_neg (by simp [hek])]
      rw [List.find?_cons_of_neg _ (by simp [hek])]
      apply ih
      rwa [List.find?_cons_of_neg _ (by simp [hek])] at h

/-- The override step does not change the keys of the chain. -/
lemma replaceVal_map_fst (k v : Str) : ∀ c : Chain,
    (replaceVal k v c).map Prod.fst = c.map Prod.fst := by
  intro c
  induction c with
  | nil => rfl
  | cons e es ih =>
    by_cases hek : e.1 = k
    · simp [replaceVal, hek]
    · simp [replaceVal, hek, ih]

/-- Splicing one node out of a chain keeps a sublist of the chain. -/
lemma eraseKeyOnce_sublist (k : Str) : ∀ c : Chain, (eraseKeyOnce k c).Sublist c := by
  intro c
  induction c with
  | nil => simp [eraseKeyOnce]
  | cons e es ih =>
    rw [eraseKeyOnce]
    by_cases hek : (e.1 == k) = true
    · rw [if_pos hek]
      exact List.sublist_cons_self e es
    · rw [if_neg hek]
      exact List.Sublist.cons₂ e ih

/-- If the chain stores no key twice, splicing out the node with key `k`
leaves no node with key `k`. -/
lemma not_mem_keys_eraseKeyOnce (k : Str) : ∀ c : Chain,
    (c.map Prod.fst).Nodup → k ∉ (eraseKeyOnce k c).map Prod.fst := by
  intro c
  induction c with
  | nil => intro _; simp [eraseKeyOnce]
  | cons e es ih =>
    intro hnd
    rw [List.map_cons] at hnd
    obtain ⟨h1, h2⟩ := List.nodup_cons.1 hnd
    rw [eraseKeyOnce]
    by_cases hek : (e.1 == k) = true
    · rw [if_pos hek]
      have he : e.1 = k := by simpa using hek
      exact he ▸ h1
    · rw [if_neg hek]
      have hke : k ≠ e.1 := by
        intro hh
        exact hek (by simp [hh])
      intro hmem
      rw [List.map_cons] at hmem
      rcases List.mem_cons.1 hmem with h | h
      · exact hke h
      · exact ih h2 h

lemma grow_eq_zero (P : HParams) (t : Hasht) (junk : Nat → Chain) (hm0 : t.m = 0) :
    grow_hash_table P t junk = ⟨MIN_TABLE_SIZE, t.n, alloc MIN_TABLE_SIZE junk⟩ := by
  rw [grow_hash_table, if_pos hm0]

lemma grow_eq_pos (P : HParams) (t : Hasht) (junk : Nat → Chain) (hm0 : ¬ t.m = 0) :
    grow_hash_table P t junk = resize_hash_table P t (2 * t.m) junk := by
  rw [grow_hash_table, if_neg hm0]

lemma shrink_eq_small (P : HParams) (t : Hasht) (junk : Nat → Chain)
    (h : t.m < MIN_TABLE_SIZE * 2) : shrink_hash_table P t junk = t := by
  rw [shrink_hash_table, if_pos h]

lemma shrink_eq_big (P : HParams) (t : Hasht) (junk : Nat → Chain)
    (h : ¬ t.m < MIN_TABLE_SIZE * 2) :
    shrink_hash_table P t junk = resize_hash_table P t (t.m / 2) junk := by
  rw [shrink_hash_table, if_neg h]

lemma length_resize (P : HParams) (t : Hasht) (newm : Nat) (junk : Nat → Chain) :
    (resize_hash_table P t newm junk).table.length = newm := by
  show (rehashAll P newm (alloc newm junk) t.table).length = newm
  rw [length_rehashAll, length_alloc]

/-- The `hash_insert` branch for an absent key, written out. -/
lemma insert_none_eq (P : HParams) (t : Hasht) (k v : Str) (junk : Nat → Chain)
    (hnone : hash_search_node P t k = none) :
    hash_insert P t k v junk =
      { m := (if t.n = t.m then grow_hash_table P t junk else t).m,
        n := (if t.n = t.m then grow_hash_table P t junk else t).n + 1,
        table := (if t.n = t.m then grow_hash_table P t junk else t).table.set
          (hashIdx P k (if t.n = t.m then grow_hash_table P t junk else t).m)
          ((k, v) :: bucketAt (if t.n = t.m then grow_hash_table P t junk else t).table
            (hashIdx P k (if t.n = t.m then grow_hash_table P t junk else t).m)) } := by
  unfold hash_insert
  rw [hnone]

/-- The `hash_insert` branch for a present key, written out. -/
lemma insert_found_eq (P : HParams) (t : Hasht) (k v : Str) (junk : Nat → Chain)
    {e : Entry} (hfound : hash_search_node P t k = some e) :
    hash_insert P t k v junk =
      { m := t.m, n := t.n,
        table := t.table.set (hashIdx P k t.m)
          (replaceVal k v (bucketAt t.table (hashIdx P k t.m))) } := by
  unfold hash_insert
  rw [hfound]

/-- The `hash_remove` branch for an absent key, written out. -/
lemma remove_none_eq (P : HParams) (t : Hasht) (k : Str) (junk : Nat → Chain)
    (hnone : hash_search_node P t k = none) :
    hash_remove P t k junk = t := by
  unfold hash_remove
  rw [hnone]

/-- The `hash_remove` branch for a present key, written out. -/
lemma remove_found_eq (P : HParams) (t : Hasht) (k : Str) (junk : Nat → Chain)
    {e : Entry} (hfound : hash_search_node P t k = some e) :
    hash_remove P t k junk =
      { m := (if t.n / 4 ≤ t.m then shrink_hash_table P t junk else t).m,
        n := (if t.n / 4 ≤ t.m then shrink_hash_table P t junk else t).n - 1,
        table := (if t.n / 4 ≤ t.m then shrink_hash_table P t junk else t).table.set
          (hashIdx P k (if t.n / 4 ≤ t.m then shrink_hash_table P t junk else t).m)
          (eraseKeyOnce k
            (bucketAt (if t.n / 4 ≤ t.m then shrink_hash_table P t junk else t).table
              (hashIdx P k (if t.n / 4 ≤ t.m then shrink_hash_table P t junk else t).m))) } := by
  unfold hash_remove
  rw [hfound]

/-- Searching a table whose slot for `k` just had `(k, v)` consed on. -/
lemma search_cons_head (P : HParams) (m1 n1 : Nat) (tb : List Chain) (k v : Str)
    (hm : 0 < m1) (hlen : tb.length = m1) :
    hash_search P
      ⟨m1, n1, tb.set (hashIdx P k m1) ((k, v) :: bucketAt tb (hashIdx P k m1))⟩ k
      = some v := by
  have hm' : ¬ m1 = 0 := by omega
  have hslot : hashIdx P k m1 < tb.length := by
    rw [hlen]
    exact hashIdx_lt P k hm
  rw [hash_search, hash_search_node]
  simp only [hm', if_false, ite_false, if_neg]
  rw [bucketAt_set_self hslot]
  rw [List.find?_cons_of_pos _ (by simp)]
  rfl

/-- Full specification of the fresh-key branch of `hash_insert`: the table
grows exactly when `n = m` (doubling, or `MIN_TABLE_SIZE` from `m = 0`),
`n` is incremented, the array keeps `m` slots, and the new entry sits at
the head of its post-growth bucket, where `hash_search` finds it. -/
lemma insert_new_spec (P : HParams) (t : Hasht) (k v : Str) (junk : Nat → Chain)
    (hnone : hash_search_node P t k = none)
    (hlen : t.table.length = t.m) (h2 : t.m = 0 → t.n = 0) :
    (hash_insert P t k v junk).m
        = (if t.n = t.m then (if t.m = 0 then MIN_TABLE_SIZE else 2 * t.m) else t.m)
    ∧ (hash_insert P t k v junk).n = t.n + 1
    ∧ (hash_insert P t k v junk).table.length = (hash_insert P t k v junk).m
    ∧ (bucketAt (hash_insert P t k v junk).table
        (hashIdx P k (hash_insert P t k v junk).m)).head? = some (k, v)
    ∧ hash_search P (hash_insert P t k v junk) k = some v := by
  rw [insert_none_eq P t k v junk hnone]
  by_cases hnm : t.n = t.m
  · rw [if_pos hnm, if_pos hnm]
    by_cases hm0 : t.m = 0
    · rw [if_pos hm0, grow_eq_zero P t junk hm0]
      have hpos : 0 < MIN_TABLE_SIZE := by norm_num [MIN_TABLE_SIZE]
      have hL : (alloc MIN_TABLE_SIZE junk).length = MIN_TABLE_SIZE := length_alloc _ _
      have hslot : hashIdx P k MIN_TABLE_SIZE < (alloc MIN_TABLE_SIZE junk).length := by
        rw [hL]
        exact hashIdx_lt P k hpos
      refine ⟨rfl, rfl, ?_, ?_, ?_⟩
      · show ((alloc MIN_TABLE_SIZE junk).set _ _).length = MIN_TABLE_SIZE
        rw [List.length_set, hL]
      · show (bucketAt ((alloc MIN_TABLE_SIZE junk).set (hashIdx P k MIN_TABLE_SIZE) _)
            (hashIdx P k MIN_TABLE_SIZE)).head? = some (k, v)
        rw [bucketAt_set_self hslot]
        rfl
      · exact search_cons_head P MIN_TABLE_SIZE (t.n + 1) (alloc MIN_TABLE_SIZE junk) k v hpos hL
    · rw [if_neg hm0, grow_eq_pos P t junk hm0]
      have hpos : 0 < 2 * t.m := by omega
      have hL : (resize_hash_table P t (2 * t.m) junk).table.length = 2 * t.m :=
        length_resize P t (2 * t.m) junk
      have hslot : hashIdx P k (2 * t.m) < (resize_hash_table P t (2 * t.m) junk).table.length := by
        rw [hL]
        exact hashIdx_lt P k hpos
      refine ⟨rfl, rfl, ?_, ?_, ?_⟩
      · show ((resize_hash_table P t (2 * t.m) junk).table.set _ _).length = 2 * t.m
        rw [List.length_set, hL]
      · show (bucketAt ((resize_hash_table P t (2 * t.m) junk).table.set
            (hashIdx P k (2 * t.m)) _) (hashIdx P k (2 * t.m))).head? = some (k, v)
        rw [bucketAt_set_self hslot]
        rfl
      · exact search_cons_head P (2 * t.m) (t.n + 1)
          (resize_hash_table P t (2 * t.m) junk).table k v hpos hL
  · rw [if_neg hnm, if_neg hnm]
    have hm0 : ¬ t.m = 0 := by
      intro h0
      exact hnm (by rw [h0, h2 h0])
    have hpos : 0 < t.m := by omega
    have hslot : hashIdx P k t.m < t.table.length := by
      rw [hlen]
      exact hashIdx_lt P k hpos
    refine ⟨rfl, rfl, ?_, ?_, ?_⟩
    · show (t.table.set _ _).length = t.m
      rw [List.length_set, hlen]
    · show (bucketAt (t.table.set (hashIdx P k t.m) _) (hashIdx P k t.m)).head? = some (k, v)
      rw [bucketAt_set_self hslot]
      rfl
    · exact search_cons_head P t.m (t.n + 1) t.table k v hpos hlen

/-- Specification of the present-key branch of `hash_insert`: `m`, `n`
and the array shape are unchanged and `hash_search` now returns `v`. -/
lemma insert_found_spec (P : HParams) (t : Hasht) (k v : Str) (junk : Nat → Chain)
    {e : Entry} (hfound : hash_search_node P t k = some e)
    (hlen : t.table.length = t.m) :
    (hash_insert P t k v junk).m = t.m
    ∧ (hash_insert P t k v junk).n = t.n
    ∧ (hash_insert P t k v junk).table.length = t.m
    ∧ hash_search P (hash_insert P t k v junk) k = some v := by
  have hm : t.m ≠ 0 := m_ne_zero_of_search_node hfound
  have hpos : 0 < t.m := by omega
  have hslot : hashIdx P k t.m < t.table.length := by
    rw [hlen]
    exact hashIdx_lt P k hpos
  have hfind : ((bucketAt t.table (hashIdx P k t.m)).find? fun x => x.1 == k).isSome := by
    rw [hash_search_node, if_neg hm] at hfound
    rw [hfound]
    rfl
  rw [insert_found_eq P t k v junk hfound]
  refine ⟨rfl, rfl, ?_, ?_⟩
  · show (t.table.set _ _).length = t.m
    rw [List.length_set, hlen]
  · rw [hash_search, hash_search_node]
    simp only [hm, if_false, ite_false, if_neg]
    rw [bucketAt_set_self hslot, find?_replaceVal k v _ hfind]
    rfl

/-- `hash_insert` preserves the structural invariant (any allocator
contents). -/
lemma WFlen_insert (P : HParams) (t : Hasht) (k v : Str) (junk : Nat → Chain)
    (hlen : t.table.length = t.m) (h2 : t.m = 0 → t.n = 0) :
    (hash_insert P t k v junk).table.length = (hash_insert P t k v junk).m
    ∧ ((hash_insert P t k v junk).m = 0 → (hash_insert P t k v junk).n = 0) := by
  cases hfound : hash_search_node P t k with
  | some e =>
    obtain ⟨hm, hn, hL, _⟩ := insert_found_spec P t k v junk hfound hlen
    refine ⟨by rw [hL, hm], ?_⟩
    intro h0
    rw [hm] at h0
    rw [hn, h2 h0]
  | none =>
    obtain ⟨hm, hn, hL, _, _⟩ := insert_new_spec P t k v junk hfound hlen h2
    refine ⟨hL, ?_⟩
    intro h0
    rw [hm] at h0
    by_cases hnm : t.n = t.m
    · rw [if_pos hnm] at h0
      by_cases hm0 : t.m = 0
      · rw [if_pos hm0] at h0
        norm_num [MIN_TABLE_SIZE] at h0
      · rw [if_neg hm0] at h0
        omega
    · rw [if_neg hnm] at h0
      exact absurd (by rw [h0, h2 h0]) hnm

lemma WF_new_hash_table (P : HParams) : WF P new_hash_table := by
  refine ⟨⟨rfl, fun _ => rfl⟩, ?_, ?_⟩
  · show ((entries new_hash_table).map Prod.fst).Nodup
    simp [entries, new_hash_table]
  · intro i e he
    rw [bucketAt_ge (by simp [new_hash_table])] at he
    cases he

lemma WF_resize_noJunk (P : HParams) (t : Hasht) {newm : Nat} (hWF : WF P t) (h0 : 0 < newm) :
    WF P (resize_hash_table P t newm noJunk)
    ∧ List.Perm (entries (resize_hash_table P t newm noJunk)) (entries t) := by
  obtain ⟨hm', hn', hL, hperm, hok⟩ := resize_noJunk_spec P t h0
  refine ⟨⟨⟨by rw [hL, hm'], ?_⟩, ?_, hok⟩, hperm⟩
  · intro hz
    rw [hm'] at hz
    omega
  · show ((entries _).map Prod.fst).Nodup
    have hnd : ((entries t).map Prod.fst).Nodup := hWF.2.1
    exact hnd.perm (List.Perm.map Prod.fst hperm).symm

lemma WF_shrink_noJunk (P : HParams) (t : Hasht) (hWF : WF P t) (hm : 0 < t.m) :
    WF P (shrink_hash_table P t noJunk)
    ∧ 0 < (shrink_hash_table P t noJunk).m
    ∧ List.Perm (entries (shrink_hash_table P t noJunk)) (entries t) := by
  by_cases h : t.m < MIN_TABLE_SIZE * 2
  · rw [shrink_eq_small P t noJunk h]
    exact ⟨hWF, hm, List.Perm.refl _⟩
  · rw [shrink_eq_big P t noJunk h]
    have h0 : 0 < t.m / 2 := by
      unfold MIN_TABLE_SIZE at h
      omega
    obtain ⟨hWF', hperm⟩ := WF_resize_noJunk P t hWF h0
    exact ⟨hWF', h0, hperm⟩

/-- No key appears twice in one bucket of a table with globally distinct
keys. -/
lemma bucket_keys_nodup {t : Hasht} (hnd : NodupKeys t) (i : Nat) :
    ((bucketAt t.table i).map Prod.fst).Nodup := by
  have hnd' : ((entries t).map Prod.fst).Nodup := hnd
  by_cases h : i < t.table.length
  · have hsub : (bucketAt t.table i).Sublist t.table.flatten := by
      rw [bucketAt_lt h]
      exact List.sublist_flatten_of_mem (List.getElem_mem h)
    exact (List.Sublist.map Prod.fst hsub).nodup hnd'
  · rw [bucketAt_ge (le_of_not_lt h)]
    simp

/-- The override step keeps the keys of the whole table unchanged. -/
lemma keys_set_replace (tb : List Chain) (i : Nat) (h : i < tb.length) (k v : Str) :
    ((tb.set i (replaceVal k v (bucketAt tb i))).flatten).map Prod.fst
      = (tb.flatten).map Prod.fst := by
  rw [List.map_flatten, List.map_flatten, List.map_set]
  congr 1
  rw [replaceVal_map_fst]
  have hcm : i < (tb.map (List.map Prod.fst)).length := by simpa using h
  have hb : (bucketAt tb i).map Prod.fst = (tb.map (List.map Prod.fst))[i] := by
    rw [bucketAt_lt h, List.getElem_map]
  rw [hb]
  exact set_self_eq _ i hcm

/-- A table in which no entry has key `k` fails to find `k`. -/
lemma search_node_none_of_no_key (P : HParams) (t : Hasht) (k : Str)
    (hko : ∀ w, (k, w) ∉ entries t) : hash_search_node P t k = none := by
  cases hs : hash_search_node P t k with
  | none => rfl
  | some e =>
    obtain ⟨hmem, hk⟩ := search_node_eq_some hs
    refine absurd ?_ (hko e.2)
    rw [← hk]
    simpa using hmem

/-- A key the table fails to find is (under the invariant) not stored at
all. -/
lemma no_key_of_search_node_none {P : HParams} {t : Hasht} {k : Str}
    (hWF : WF P t) (hnone : hash_search_node P t k = none) :
    ∀ w, (k, w) ∉ entries t := by
  intro w hw
  have h := search_node_of_mem hWF.1.1 hWF.2.2 hWF.2.1 hw
  rw [hnone] at h
  cases h

/-- `hash_insert` with cleared allocations preserves the full invariant. -/
lemma WF_insert_noJunk (P : HParams) (t : Hasht) (k v : Str) (hWF : WF P t) :
    WF P (hash_insert P t k v noJunk) := by
  obtain ⟨⟨hlen, h2⟩, hnd, hok⟩ := hWF
  have hnd' : ((entries t).map Prod.fst).Nodup := hnd
  cases hfound : hash_search_node P t k with
  | some e =>
    have hm : t.m ≠ 0 := m_ne_zero_of_search_node hfound
    have hpos : 0 < t.m := by omega
    have hslot : hashIdx P k t.m < t.table.length := by
      rw [hlen]
      exact hashIdx_lt P k hpos
    rw [insert_found_eq P t k v noJunk hfound]
    refine ⟨⟨?_, ?_⟩, ?_, ?_⟩
    · show (t.table.set _ _).length = t.m
      rw [List.length_set, hlen]
    · intro h0
      exact absurd h0 hm
    · show ((Hasht.table _).flatten.map Prod.fst).Nodup
      rw [show (Hasht.table
          { m := t.m, n := t.n,
            table := t.table.set (hashIdx P k t.m)
              (replaceVal k v (bucketAt t.table (hashIdx P k t.m))) })
          = t.table.set (hashIdx P k t.m)
              (replaceVal k v (bucketAt t.table (hashIdx P k t.m))) from rfl]
      rw [keys_set_replace t.table _ hslot k v]
      exact hnd'
    · intro i e' he'
      by_cases hij : hashIdx P k t.m = i
      · rw [← hij] at he' ⊢
        rw [show (Hasht.table
            { m := t.m, n := t.n,
              table := t.table.set (hashIdx P k t.m)
                (replaceVal k v (bucketAt t.table (hashIdx P k t.m))) })
            = t.table.set (hashIdx P k t.m)
                (replaceVal k v (bucketAt t.table (hashIdx P k t.m))) from rfl] at he'
        rw [bucketAt_set_self hslot] at he'
        have h1 : e'.1 ∈ (bucketAt t.table (hashIdx P k t.m)).map Prod.fst := by
          rw [← replaceVal_map_fst k v]
          exact List.mem_map_of_mem Prod.fst he'
        obtain ⟨e0, he0, heq⟩ := List.mem_map.1 h1
        have := hok _ e0 he0
        show hashIdx P e'.1 t.m = hashIdx P k t.m
        rw [← heq, this]
      · rw [show (Hasht.table
            { m := t.m, n := t.n,
              table := t.table.set (hashIdx P k t.m)
                (replaceVal k v (bucketAt t.table (hashIdx P k t.m))) })
            = t.table.set (hashIdx P k t.m)
                (replaceVal k v (bucketAt t.table (hashIdx P k t.m))) from rfl] at he'
        rw [bucketAt_set_ne hij _] at he'
        exact hok i e' he'
  | none =>
    have hknot : ∀ w, (k, w) ∉ entries t :=
      no_key_of_search_node_none ⟨⟨hlen, h2⟩, hnd, hok⟩ hfound
    rw [insert_none_eq P t k v noJunk hfound]
    set t1 := if t.n = t.m then grow_hash_table P t noJunk else t with ht1
    have hpack : t1.table.length = t1.m ∧ 0 < t1.m
        ∧ List.Perm (entries t1) (entries t) ∧ BucketsOk P t1 := by
      rw [ht1]
      by_cases hnm : t.n = t.m
      · rw [if_pos hnm]
        by_cases hm0 : t.m = 0
        · rw [grow_eq_zero P t noJunk hm0]
          have htb : t.table = [] := List.length_eq_zero.1 (by rw [hlen, hm0])
          refine ⟨length_alloc _ _, by norm_num [MIN_TABLE_SIZE], ?_, ?_⟩
          · show List.Perm (alloc MIN_TABLE_SIZE noJunk).flatten t.table.flatten
            rw [alloc_noJunk, flatten_replicate_nil, htb]
            rfl
          · intro i e' he'
            rw [show (Hasht.table ⟨MIN_TABLE_SIZE, t.n, alloc MIN_TABLE_SIZE noJunk⟩
                = alloc MIN_TABLE_SIZE noJunk) from rfl, alloc_noJunk,
              bucketAt_replicate_nil] at he'
            cases he'
        · rw [grow_eq_pos P t noJunk hm0]
          have h0 : 0 < 2 * t.m := by omega
          obtain ⟨hWF', hperm⟩ := WF_resize_noJunk P t ⟨⟨hlen, h2⟩, hnd, hok⟩ h0
          exact ⟨hWF'.1.1, by show 0 < 2 * t.m; omega, hperm, hWF'.2.2⟩
      · rw [if_neg hnm]
        have hm0 : ¬ t.m = 0 := by
          intro h0
          exact hnm (by rw [h0, h2 h0])
        exact ⟨hlen, by omega, List.Perm.refl _, hok⟩
    obtain ⟨hlen1, hpos1, hperm1, hok1⟩ := hpack
    have hnd1 : ((entries t1).map Prod.fst).Nodup :=
      hnd'.perm (List.Perm.map Prod.fst hperm1).symm
    have hslot1 : hashIdx P k t1.m < t1.table.length := by
      rw [hlen1]
      exact hashIdx_lt P k hpos1
    have hflat : List.Perm
        ((t1.table.set (hashIdx P k t1.m)
          ((k, v) :: bucketAt t1.table (hashIdx P k t1.m))).flatten)
        ((k, v) :: entries t1) :=
      flatten_set_cons t1.table _ hslot1 (k, v)
    refine ⟨⟨?_, ?_⟩, ?_, ?_⟩
    · show (t1.table.set _ _).length = t1.m
      rw [List.length_set, hlen1]
    · intro h0
      have hm1 : ¬ t1.m = 0 := by omega
      exact absurd h0 hm1
    · show ((t1.table.set (hashIdx P k t1.m)
          ((k, v) :: bucketAt t1.table (hashIdx P k t1.m))).flatten.map Prod.fst).Nodup
      refine List.Nodup.perm ?_ (List.Perm.map Prod.fst hflat).symm
      rw [List.map_cons]
      refine List.nodup_cons.2 ⟨?_, hnd1⟩
      intro hkmem
      obtain ⟨e0, he0, heq⟩ := List.mem_map.1 hkmem
      have heq' : e0.1 = k := by simpa using heq
      have he0' : e0 ∈ entries t := hperm1.mem_iff.1 he0
      refine hknot e0.2 ?_
      rw [← heq', Prod.mk.eta]
      exact he0'
    · intro i e' he'
      show hashIdx P e'.1 t1.m = i
      by_cases hij : hashIdx P k t1.m = i
      · rw [← hij] at he' ⊢
        rw [show (Hasht.table ⟨t1.m, t1.n + 1,
            t1.table.set (hashIdx P k t1.m)
              ((k, v) :: bucketAt t1.table (hashIdx P k t1.m))⟩
            = t1.table.set (hashIdx P k t1.m)
              ((k, v) :: bucketAt t1.table (hashIdx P k t1.m))) from rfl] at he'
        rw [bucketAt_set_self hslot1] at he'
        rcases List.mem_cons.1 he' with h | h
        · rw [h]
        · exact hok1 _ e' h
      · rw [show (Hasht.table ⟨t1.m, t1.n + 1,
            t1.table.set (hashIdx P k t1.m)
              ((k, v) :: bucketAt t1.table (hashIdx P k t1.m))⟩
            = t1.table.set (hashIdx P k t1.m)
              ((k, v) :: bucketAt t1.table (hashIdx P k t1.m))) from rfl] at he'
        rw [bucketAt_set_ne hij _] at he'
        exact hok1 i e' he'

/-- After `hash_remove` of `k` (cleared allocations, invariant holding),
no entry with key `k` remains. -/
lemma not_mem_keys_remove (P : HParams) (t : Hasht) (k : Str) (hWF : WF P t) :
    ∀ w, (k, w) ∉ entries (hash_remove P t k noJunk) := by
  cases hfound : hash_search_node P t k with
  | none =>
    rw [remove_none_eq P t k noJunk hfound]
    exact no_key_of_search_node_none hWF hfound
  | some e =>
    have hm : t.m ≠ 0 := m_ne_zero_of_search_node hfound
    have hmpos : 0 < t.m := by omega
    rw [remove_found_eq P t k noJunk hfound]
    set t1 := if t.n / 4 ≤ t.m then shrink_hash_table P t noJunk else t with ht1
    have hpack : WF P t1 ∧ 0 < t1.m := by
      rw [ht1]
      by_cases hc : t.n / 4 ≤ t.m
      · rw [if_pos hc]
        obtain ⟨hWF', hpos', _⟩ := WF_shrink_noJunk P t hWF hmpos
        exact ⟨hWF', hpos'⟩
      · rw [if_neg hc]
        exact ⟨hWF, hmpos⟩
    obtain ⟨⟨⟨hlen1, _⟩, hnd1, hok1⟩, hpos1⟩ := hpack
    have hslot1 : hashIdx P k t1.m < t1.table.length := by
      rw [hlen1]
      exact hashIdx_lt P k hpos1
    intro w hw
    have hw' : (k, w) ∈ (t1.table.set (hashIdx P k t1.m)
        (eraseKeyOnce k (bucketAt t1.table (hashIdx P k t1.m)))).flatten := hw
    obtain ⟨c, hc2, hkw⟩ := List.mem_flatten.1 hw'
    obtain ⟨j, hj, hcj⟩ := List.getElem_of_mem hc2
    have hbj : (k, w) ∈ bucketAt (t1.table.set (hashIdx P k t1.m)
        (eraseKeyOnce k (bucketAt t1.table (hashIdx P k t1.m)))) j := by
      rw [bucketAt_lt hj, hcj]
      exact hkw
    by_cases hjs : hashIdx P k t1.m = j
    · rw [← hjs] at hbj
      rw [bucketAt_set_self hslot1] at hbj
      have hkk : (k : Str) ∈ (eraseKeyOnce k
          (bucketAt t1.table (hashIdx P k t1.m))).map Prod.fst := by
        simpa using List.mem_map_of_mem Prod.fst hbj
      exact not_mem_keys_eraseKeyOnce k _ (bucket_keys_nodup hnd1 _) hkk
    · rw [bucketAt_set_ne hjs _] at hbj
      have hh := hok1 j ((k, w)) hbj
      exact hjs (by simpa using hh)

/-- The `m`/`n` bookkeeping of a successful `hash_remove`: the shrink
check compares `n/4` (pre-decrement) with `m`, shrinking halves `m` only
from `MIN_TABLE_SIZE * 2` up, and `n` is decremented. -/
lemma remove_found_mn (P : HParams) (t : Hasht) (k : Str) (junk : Nat → Chain)
    {e : Entry} (hfound : hash_search_node P t k = some e) :
    (hash_remove P t k junk).m
      = (if t.n / 4 ≤ t.m then (if t.m < MIN_TABLE_SIZE * 2 then t.m else t.m / 2) else t.m)
    ∧ (hash_remove P t k junk).n = t.n - 1 := by
  rw [remove_found_eq P t k junk hfound]
  by_cases hc : t.n / 4 ≤ t.m
  · rw [if_pos hc, if_pos hc]
    by_cases hs : t.m < MIN_TABLE_SIZE * 2
    · rw [shrink_eq_small P t junk hs, if_pos hs]
      exact ⟨rfl, rfl⟩
    · rw [shrink_eq_big P t junk hs, if_neg hs]
      exact ⟨rfl, rfl⟩
  · rw [if_neg hc, if_neg hc]
    exact ⟨rfl, rfl⟩

/-- `hash_insert` keeps `m` at `0` or at/above the floor. -/
lemma floor_insert (P : HParams) (t : Hasht) (k v : Str) (junk : Nat → Chain)
    (hfloor : t.m = 0 ∨ MIN_TABLE_SIZE ≤ t.m) :
    (hash_insert P t k v junk).m = 0 ∨ MIN_TABLE_SIZE ≤ (hash_insert P t k v junk).m := by
  cases hfound : hash_search_node P t k with
  | some e =>
    rw [insert_found_eq P t k v junk hfound]
    exact hfloor
  | none =>
    rw [insert_none_eq P t k v junk hfound]
    show (if t.n = t.m then grow_hash_table P t junk else t).m = 0
      ∨ MIN_TABLE_SIZE ≤ (if t.n = t.m then grow_hash_table P t junk else t).m
    by_cases hnm : t.n = t.m
    · rw [if_pos hnm]
      by_cases hm0 : t.m = 0
      · rw [grow_eq_zero P t junk hm0]
        right
        exact le_rfl
      · rw [grow_eq_pos P t junk hm0]
        rcases hfloor with h | h
        · exact absurd h hm0
        · right
          show MIN_TABLE_SIZE ≤ 2 * t.m
          omega
    · rw [if_neg hnm]
      exact hfloor

/-- `hash_remove` keeps `m` at `0` or at/above the floor. -/
lemma floor_remove (P : HParams) (t : Hasht) (k : Str) (junk : Nat → Chain)
    (hfloor : t.m = 0 ∨ MIN_TABLE_SIZE ≤ t.m) :
    (hash_remove P t k junk).m = 0 ∨ MIN_TABLE_SIZE ≤ (hash_remove P t k junk).m := by
  cases hfound : hash_search_node P t k with
  | none =>
    rw [remove_none_eq P t k junk hfound]
    exact hfloor
  | some e =>
    rw [remove_found_eq P t k junk hfound]
    show (if t.n / 4 ≤ t.m then shrink_hash_table P t junk else t).m = 0
      ∨ MIN_TABLE_SIZE ≤ (if t.n / 4 ≤ t.m then shrink_hash_table P t junk else t).m
    by_cases hc : t.n / 4 ≤ t.m
    · rw [if_pos hc]
      by_cases hs : t.m < MIN_TABLE_SIZE * 2
      · rw [shrink_eq_small P t junk hs]
        exact hfloor
      · rw [shrink_eq_big P t junk hs]
        right
        show MIN_TABLE_SIZE ≤ t.m / 2
        simp only [MIN_TABLE_SIZE] at hs ⊢
        omega
    · rw [if_neg hc]
      exact hfloor

/-- The floor invariant is preserved along any run. -/
lemma run_floor (P : HParams) : ∀ (ops : List Op) (t : Hasht),
    (t.m = 0 ∨ MIN_TABLE_SIZE ≤ t.m) →
    ((ops.foldl (applyOp P) t).m = 0 ∨ MIN_TABLE_SIZE ≤ (ops.foldl (applyOp P) t).m) := by
  intro ops
  induction ops with
  | nil => intro t h; exact h
  | cons op rest ih =>
    intro t h
    show (rest.foldl (applyOp P) (applyOp P t op)).m = 0
      ∨ MIN_TABLE_SIZE ≤ (rest.foldl (applyOp P) (applyOp P t op)).m
    refine ih (applyOp P t op) ?_
    cases op with
    | ins k v junk => exact floor_insert P t k v junk h
    | del k junk => exact floor_remove P t k junk h

/-- Lookup of any stored pair survives a cleared-slot resize. -/
lemma search_resize_noJunk (P : HParams) (t : Hasht) {newm : Nat} (k v : Str)
    (hnd : NodupKeys t)
    (hv : hash_search P t k = some v) (h0 : 0 < newm) :
    hash_search P (resize_hash_table P t newm noJunk) k = some v := by
  obtain ⟨e, he, hev⟩ := Option.map_eq_some'.1 hv
  obtain ⟨hmem, hek⟩ := search_node_eq_some he
  have hkv : (k, v) ∈ entries t := by
    rw [← hek, ← hev, Prod.mk.eta]
    exact hmem
  obtain ⟨hm', hn', hL, hperm, hok'⟩ := resize_noJunk_spec P t h0
  have hnd2 : NodupKeys (resize_hash_table P t newm noJunk) := by
    show ((entries _).map Prod.fst).Nodup
    have hnd' : ((entries t).map Prod.fst).Nodup := hnd
    exact hnd'.perm (List.Perm.map Prod.fst hperm).symm
  have hmem2 : (k, v) ∈ entries (resize_hash_table P t newm noJunk) :=
    hperm.symm.mem_iff.1 hkv
  rw [hash_search, search_node_of_mem (by rw [hL, hm']) hok' hnd2 hmem2]
  rfl

/-- A one-entry table built by the public API, used to instantiate the
claims below. -/
def t1w : Hasht := hash_insert P0 new_hash_table [1] [7] noJunk

/-- A possible content of uninitialized `malloc` memory: every slot reads
as a one-node chain with key `[2]` and value `[9]`. -/
def junkDemo : Nat → Chain := fun _ => [([2], [9])]

instance (t : Hasht) : Decidable (NodupKeys t) := by
  unfold NodupKeys
  exact List.nodupDecidable _

/-- Claim C1: for every key `k` and value `v`, `hash_insert t k v`
followed by `hash_search t k` returns a string equal to `v` (the
fresh-copy aspect of `strdup` is modelled by returning the value itself).
Holds for any contents of uninitialized allocations. -/
theorem C1_round_trip (P : HParams) (t : Hasht) (k v : Str) (junk : Nat → Chain)
    (hlen : t.table.length = t.m) (hempty : t.m = 0 → t.n = 0) :
    hash_search P (hash_insert P t k v junk) k = some v := by
  cases hfound : hash_search_node P t k with
  | some e => exact (insert_found_spec P t k v junk hfound hlen).2.2.2
  | none => exact (insert_new_spec P t k v junk hfound hlen hempty).2.2.2.2

theorem C1_witness :
    (new_hash_table.table.length = new_hash_table.m
     ∧ (new_hash_table.m = 0 → new_hash_table.n = 0))
    ∧ hash_search P0 (hash_insert P0 new_hash_table [1] [7] noJunk) [1] = some [7] :=
  ⟨⟨rfl, fun _ => rfl⟩,
   C1_round_trip P0 new_hash_table [1] [7] noJunk rfl (fun _ => rfl)⟩

/-- Claim C2: every key/value pair present before a resize (the rehash
itself, a grow, or a shrink) is returned unchanged by `hash_search`
immediately after it, for resizes whose fresh array is cleared as the
specification requires. -/
theorem C2_resize_fidelity (P : HParams) (t : Hasht) (k v : Str) (newm : Nat)
    (hnd : NodupKeys t) (hv : hash_search P t k = some v) (hm : 0 < newm) :
    hash_search P (resize_hash_table P t newm noJunk) k = some v
    ∧ hash_search P (grow_hash_table P t noJunk) k = some v
    ∧ hash_search P (shrink_hash_table P t noJunk) k = some v := by
  have hm0 : t.m ≠ 0 := by
    intro h0
    rw [hash_search, hash_search_node, if_pos h0] at hv
    cases hv
  refine ⟨search_resize_noJunk P t k v hnd hv hm, ?_, ?_⟩
  · rw [grow_eq_pos P t noJunk hm0]
    exact search_resize_noJunk P t k v hnd hv (by omega)
  · by_cases hs : t.m < MIN_TABLE_SIZE * 2
    · rw [shrink_eq_small P t noJunk hs]
      exact hv
    · rw [shrink_eq_big P t noJunk hs]
      refine search_resize_noJunk P t k v hnd hv ?_
      simp only [MIN_TABLE_SIZE] at hs
      omega

theorem C2_witness :
    (NodupKeys t1w ∧ hash_search P0 t1w [1] = some [7] ∧ 0 < 64)
    ∧ (hash_search P0 (resize_hash_table P0 t1w 64 noJunk) [1] = some [7]
       ∧ hash_search P0 (grow_hash_table P0 t1w noJunk) [1] = some [7]
       ∧ hash_search P0 (shrink_hash_table P0 t1w noJunk) [1] = some [7]) :=
  ⟨⟨by decide, by decide, by decide⟩,
   C2_resize_fidelity P0 t1w [1] [7] 64 (by decide) (by decide) (by decide)⟩

/-- Claim C3 is FALSE of the code (a code bug the specification already
flags): the fresh bucket array is not cleared before the emptiness probes
read it, so whatever the allocator returns is live data.  Witness: after
one insert into a fresh table whose allocation reads as garbage chains
(`junkDemo`), searching a never-inserted key returns the garbage value,
while the same insert with cleared slots returns "absent". -/
theorem C3_uninit_bucket_read :
    hash_search P0 (hash_insert P0 new_hash_table [1] [7] junkDemo) [2] = some [9]
    ∧ hash_search P0 (hash_insert P0 new_hash_table [1] [7] noJunk) [2] = none :=
  ⟨by decide, by decide⟩

/-- Claim C4: inserting an absent key grows the table exactly when
`n = m` (to `MIN_TABLE_SIZE` from `m = 0`, else doubling), and the new
entry is placed at the head of the bucket chain computed under the
post-growth `m`. -/
theorem C4_growth_trigger (P : HParams) (t : Hasht) (k v : Str) (junk : Nat → Chain)
    (habsent : hash_search_node P t k = none)
    (hlen : t.table.length = t.m) (hempty : t.m = 0 → t.n = 0) :
    (hash_insert P t k v junk).m
      = (if t.n = t.m then (if t.m = 0 then MIN_TABLE_SIZE else 2 * t.m) else t.m)
    ∧ (bucketAt (hash_insert P t k v junk).table
        (hashIdx P k (hash_insert P t k v junk).m)).head? = some (k, v) := by
  obtain ⟨h1, _, _, h4, _⟩ := insert_new_spec P t k v junk habsent hlen hempty
  exact ⟨h1, h4⟩

theorem C4_witness :
    (hash_search_node P0 new_hash_table [1] = none
     ∧ new_hash_table.table.length = new_hash_table.m
     ∧ (new_hash_table.m = 0 → new_hash_table.n = 0))
    ∧ ((hash_insert P0 new_hash_table [1] [7] noJunk).m
        = (if new_hash_table.n = new_hash_table.m
            then (if new_hash_table.m = 0 then MIN_TABLE_SIZE else 2 * new_hash_table.m)
            else new_hash_table.m)
       ∧ (bucketAt (hash_insert P0 new_hash_table [1] [7] noJunk).table
           (hashIdx P0 [1] (hash_insert P0 new_hash_table [1] [7] noJunk).m)).head?
          = some ([1], [7])) :=
  ⟨⟨rfl, rfl, fun _ => rfl⟩,
   C4_growth_trigger P0 new_hash_table [1] [7] noJunk rfl rfl (fun _ => rfl)⟩

/-- Claim C5: a `hash_remove` that finds its key runs the shrink check on
the pre-decrement `n` (firing exactly when `n/4 ≤ m`); when it fires, `m`
is halved only if `m ≥ 2 * MIN_TABLE_SIZE` and kept otherwise, and `n` is
then decremented. -/
theorem C5_shrink_trigger (P : HParams) (t : Hasht) (k : Str) (junk : Nat → Chain)
    (e : Entry) (hfound : hash_search_node P t k = some e) :
    (hash_remove P t k junk).m
      = (if t.n / 4 ≤ t.m then (if t.m < MIN_TABLE_SIZE * 2 then t.m else t.m / 2) else t.m)
    ∧ (hash_remove P t k junk).n = t.n - 1 :=
  remove_found_mn P t k junk hfound

theorem C5_witness :
    hash_search_node P0 t1w [1] = some ([1], [7])
    ∧ ((hash_remove P0 t1w [1] noJunk).m
        = (if t1w.n / 4 ≤ t1w.m
            then (if t1w.m < MIN_TABLE_SIZE * 2 then t1w.m else t1w.m / 2) else t1w.m)
       ∧ (hash_remove P0 t1w [1] noJunk).n = t1w.n - 1) :=
  ⟨by decide, C5_shrink_trigger P0 t1w [1] noJunk ([1], [7]) (by decide)⟩

/-- Claim C6: in every table reachable from a fresh table by any sequence
of inserts and removes (whatever the allocator returns each time), `m` is
`0` or at least `MIN_TABLE_SIZE`. -/
theorem C6_floor_invariant (P : HParams) (ops : List Op) :
    (run P ops).m = 0 ∨ MIN_TABLE_SIZE ≤ (run P ops).m :=
  run_floor P ops new_hash_table (Or.inl rfl)

/-- Claim C7: inserting `k ↦ v1` then `k ↦ v2` makes `hash_search`
return `v2`, and the second insert leaves the element count unchanged. -/
theorem C7_upsert (P : HParams) (t : Hasht) (k v1 v2 : Str) (j1 j2 : Nat → Chain)
    (hlen : t.table.length = t.m) (hempty : t.m = 0 → t.n = 0) :
    hash_search P (hash_insert P (hash_insert P t k v1 j1) k v2 j2) k = some v2
    ∧ (hash_insert P (hash_insert P t k v1 j1) k v2 j2).n
        = (hash_insert P t k v1 j1).n := by
  obtain ⟨hlen1, hempty1⟩ := WFlen_insert P t k v1 j1 hlen hempty
  have hs1 : hash_search P (hash_insert P t k v1 j1) k = some v1 := by
    cases hfound : hash_search_node P t k with
    | some e => exact (insert_found_spec P t k v1 j1 hfound hlen).2.2.2
    | none => exact (insert_new_spec P t k v1 j1 hfound hlen hempty).2.2.2.2
  obtain ⟨e, he, _⟩ := Option.map_eq_some'.1 hs1
  obtain ⟨_, hn2, _, hsearch2⟩ := insert_found_spec P (hash_insert P t k v1 j1) k v2 j2 he hlen1
  exact ⟨hsearch2, hn2⟩

theorem C7_witness :
    (new_hash_table.table.length = new_hash_table.m
     ∧ (new_hash_table.m = 0 → new_hash_table.n = 0))
    ∧ (hash_search P0
        (hash_insert P0 (hash_insert P0 new_hash_table [1] [7] noJunk) [1] [8] noJunk) [1]
          = some [8]
       ∧ (hash_insert P0 (hash_insert P0 new_hash_table [1] [7] noJunk) [1] [8] noJunk).n
          = (hash_insert P0 new_hash_table [1] [7] noJunk).n) :=
  ⟨⟨rfl, fun _ => rfl⟩,
   C7_upsert P0 new_hash_table [1] [7] [8] noJunk noJunk rfl (fun _ => rfl)⟩

/-- Claim C8: on a well-formed table (cleared allocations), inserting
`k ↦ v` and then removing `k` leaves `hash_contains` false and
`hash_search` returning "absent" for `k`. -/
theorem C8_removal (P : HParams) (t : Hasht) (k v : Str) (hWF : WF P t) :
    hash_contains P (hash_remove P (hash_insert P t k v noJunk) k noJunk) k = false
    ∧ hash_search P (hash_remove P (hash_insert P t k v noJunk) k noJunk) k = none := by
  have hWF1 : WF P (hash_insert P t k v noJunk) := WF_insert_noJunk P t k v hWF
  have hko := not_mem_keys_remove P (hash_insert P t k v noJunk) k hWF1
  have hnone := search_node_none_of_no_key P _ k hko
  constructor
  · rw [hash_contains, hnone]
    rfl
  · rw [hash_search, hnone]
    rfl

theorem C8_witness :
    WF P0 new_hash_table
    ∧ (hash_contains P0
        (hash_remove P0 (hash_insert P0 new_hash_table [1] [7] noJunk) [1] noJunk) [1] = false
       ∧ hash_search P0
        (hash_remove P0 (hash_insert P0 new_hash_table [1] [7] noJunk) [1] noJunk) [1] = none) :=
  ⟨WF_new_hash_table P0, C8_removal P0 new_hash_table [1] [7] (WF_new_hash_table P0)⟩

/-- Claim C9: for `m > 0`, `hash key m` is exactly
`mod (mod (a * prehash key + b) p) m` (the product/sum being the
program's 64-bit value), `mod` is nonnegative and below the modulus
whatever the sign of its first operand, and the hash lies in `[0, m)`. -/
theorem C9_hash_formula (P : HParams) (key : Str) (m x : Int) (hm : 0 < m) :
    hash P key m = mod (mod (wrap64 (P.a * prehash key + P.b)) p) m
    ∧ 0 ≤ mod x m ∧ mod x m < m
    ∧ 0 ≤ hash P key m ∧ hash P key m < m :=
  ⟨rfl, mod_nonneg_of_pos x m hm, mod_lt_of_pos x m hm,
   mod_nonneg_of_pos _ m hm, mod_lt_of_pos _ m hm⟩

theorem C9_witness :
    (0 : Int) < 16
    ∧ (hash P0 [1] 16 = mod (mod (wrap64 (P0.a * prehash [1] + P0.b)) p) 16
       ∧ 0 ≤ mod (-5) 16 ∧ mod (-5) 16 < 16
       ∧ 0 ≤ hash P0 [1] 16 ∧ hash P0 [1] 16 < 16) :=
  ⟨by decide, C9_hash_formula P0 [1] 16 (-5) (by decide)⟩

/-- Claim C10: `hash_search_node`, `hash_contains` and `hash_search`
leave the table exactly as it was — the state-transformer renderings of
their bodies return the input table unchanged, and their result
components agree with the pure functions used everywhere else. -/
theorem C10_search_frame (P : HParams) (t : Hasht) (k : Str) :
    (hash_search_node_st P t k).2 = t
    ∧ (hash_contains_st P t k).2 = t
    ∧ (hash_search_st P t k).2 = t
    ∧ (hash_contains_st P t k).1 = hash_contains P t k
    ∧ (hash_search_st P t k).1 = hash_search P t k := by
  unfold hash_search_st hash_contains_st hash_search_node_st hash_contains hash_search
    hash_search_node
  by_cases h : t.m = 0 <;> simp [h]

end HashTable
